import Mathlib

/-
Verification development for `Project/parseLaws.py`: a pipeline that extracts
citations, actions and entities from Hebrew legal texts with regular
expressions, aggregates them per document and corpus-wide, and derives
adjacency tables.

Strings are modelled as `List Char` (`Str`); Python's `len` on `str` counts
code points, matching `List.length`.  The regular expressions of the source
are small enough to be embedded directly: the action patterns are a literal
keyword followed by one character of a class, and the citation and entity
patterns are sequences of literals, character classes, greedy options
(`[ה]?`, `{1,2}`) and the non-greedy any-sequence `.*?` under `re.S`.
-/

namespace ParseLaws

abbrev Str := List Char

/-- Python's `\s` for `str` patterns: ASCII whitespace (9-13, 28-31, 32) plus
the Unicode whitespace code points 133, 160, 5760, 8192-8202, 8232, 8233,
8239, 8287 and 12288. -/
def isPythonSpace (c : Char) : Bool :=
  (9 ≤ c.toNat && c.toNat ≤ 13) || (28 ≤ c.toNat && c.toNat ≤ 32) ||
  c.toNat == 133 || c.toNat == 160 || c.toNat == 5760 ||
  (8192 ≤ c.toNat && c.toNat ≤ 8202) || c.toNat == 8232 || c.toNat == 8233 ||
  c.toNat == 8239 || c.toNat == 8287 || c.toNat == 12288

/-- The trailing-character class of `remove_trailing_chars`, the regex class
`[.,;"\[\]\s:]`: the characters `.` (46), `,` (44), `;` (59), `"` (34),
`[` (91), `]` (93), `:` (58) and whitespace. -/
def isTermChar (c : Char) : Bool :=
  c.toNat == 46 || c.toNat == 44 || c.toNat == 59 || c.toNat == 34 ||
  c.toNat == 91 || c.toNat == 93 || c.toNat == 58 || isPythonSpace c

/-- The end-of-word class `[ .;,\s]` used by the action and some entity
patterns: space (32), `.` (46), `;` (59), `,` (44) and whitespace. -/
def isActionTerm (c : Char) : Bool :=
  c.toNat == 32 || c.toNat == 46 || c.toNat == 59 || c.toNat == 44 || isPythonSpace c

/-- The regex class `[0-9]`: code points 48 to 57. -/
def isDigit09 (c : Char) : Bool :=
  48 ≤ c.toNat && c.toNat ≤ 57

/-- The regex class `[א-ת"]`: the Hebrew letters `א` (1488) to `ת` (1514)
together with `"` (34). -/
def isHebrewOrQuote (c : Char) : Bool :=
  (1488 ≤ c.toNat && c.toNat ≤ 1514) || c.toNat == 34

/-- `UNICODE_CHARS_TO_IGNORE`: em space `\u2003`, Greek mu `\u03bc` and u-diaeresis `\xfc`. -/
def UNICODE_CHARS_TO_IGNORE : List Char := ['\u2003', '\u03BC', '\u00FC']

/-- `remove_weird_unicode`: each character of `UNICODE_CHARS_TO_IGNORE` is
replaced by a plain space.  The source applies `str.replace` once per listed
character; as every listed character is a single code point and the
replacement `' '` is not itself listed, the sequential replaces amount to one
simultaneous character map. -/
def remove_weird_unicode (s : Str) : Str :=
  s.map (fun c => if c ∈ UNICODE_CHARS_TO_IGNORE then ' ' else c)

/-- `remove_trailing_chars`: `re.sub('[.,;"\[\]\s:]+$', '', s)` removes the
maximal run of class characters at the end of the string (the `$` anchor,
with `re.M` unset, can only shorten that run by a final newline, which is
itself a class character, so the removed run is exactly the maximal trailing
run). -/
def remove_trailing_chars (s : Str) : Str :=
  ((s.reverse).dropWhile isTermChar).reverse

/-- The composite normalizer of the spec: replace incidental Unicode by a
space, then strip trailing terminator characters. -/
def normalize (s : Str) : Str :=
  remove_trailing_chars (remove_weird_unicode s)

/-- Scanner for `clean_list_item`.  The flag records whether the scanner is
inside a run of newlines (in which case further newlines of the run are
dropped); the first newline of a run is replaced by one space. -/
def collapseRuns : Bool → Str → Str
  | _, [] => []
  | inRun, c :: rest =>
    if c = '\n' then
      if inRun then collapseRuns true rest
      else ' ' :: collapseRuns true rest
    else c :: collapseRuns false rest

/-- `clean_list_item`: `re.sub('\n+', ' ', item)` — every maximal run of one
or more consecutive newline characters is replaced with a single space. -/
def clean_list_item (s : Str) : Str := collapseRuns false s

/-- `write_list_out` writes `clean_list_item(e) + '\r\n'` for each list
element; this is the sequence of emitted lines (utf-8 encoding is byte-level
I/O and is not modelled). -/
def write_list_out_lines (enum : List Str) : List Str :=
  enum.map (fun e => clean_list_item e ++ ['\r', '\n'])

/-- Python string `<` (lexicographic comparison by code point); `lexLe a b`
is `a ≤ b`. -/
def lexLe : Str → Str → Bool
  | [], _ => true
  | _ :: _, [] => false
  | a :: as, b :: bs => if a = b then lexLe as bs else decide (a < b)

/-- Insertion of one element into a sorted list (helper for `sortLe`). -/
def insertLe (le : Str → Str → Bool) (a : Str) : List Str → List Str
  | [] => [a]
  | b :: bs => if le a b then a :: b :: bs else b :: insertLe le a bs

/-- Sorting by a total comparison; models Python's `sorted`.  Equal string
keys are identical values, so the choice of (stable) sorting algorithm does
not affect the resulting list. -/
def sortLe (le : Str → Str → Bool) : List Str → List Str
  | [] => []
  | a :: as => insertLe le a (sortLe le as)

/-- `sorted(...)` on a list of strings. -/
def sortStrings (l : List Str) : List Str := sortLe lexLe l

/-- `LONGEST_POSSIBLE_CITATION_LENGTH = 200`. -/
def LONGEST_POSSIBLE_CITATION_LENGTH : Nat := 200

/-- Tokens of the regular expressions used by the source: a one-character
class (also used for literal characters), the non-greedy `.*?` under `re.S`
(matches any characters, preferring as few as possible), and a greedy
optional class character (`[ה]?`, or the second character of `{1,2}`). -/
inductive RTok : Type where
  | cls (p : Char → Bool)
  | lazyAny
  | opt (p : Char → Bool)

/-- Length of the backtracking-priority match of a token sequence at the
start of `s`, as Python's engine would find it: classes are deterministic,
`.*?` takes the fewest characters for which the remaining tokens match, and
an optional prefers to consume its character when the remaining tokens still
match.  `none` when no match exists at this position. -/
def matchLen : List RTok → Str → Option Nat
  | [], _ => some 0
  | .cls _ :: _, [] => none
  | .cls p :: ps, c :: s => if p c then (matchLen ps s).map (· + 1) else none
  | .lazyAny :: ps, s =>
    (List.range (s.length + 1)).findSome? (fun k => (matchLen ps (s.drop k)).map (· + k))
  | .opt _ :: ps, [] => matchLen ps []
  | .opt p :: ps, c :: s =>
    if p c then
      match matchLen ps s with
      | some n => some (n + 1)
      | none => matchLen ps (c :: s)
    else matchLen ps (c :: s)

/-- The scan of `re.findall`: try a match at every position from the left;
after a match of length `n`, resume at the end of the matched text (after
a zero-width match, resume one character further).  `ban` counts positions
still covered by the previous match, at which no attempt is made. -/
def findAllGo (pat : List RTok) : Str → Nat → List Str
  | [], Nat.succ _ => []
  | [], 0 =>
    match matchLen pat [] with
    | some _ => [[]]
    | none => []
  | _ :: rest, Nat.succ b => findAllGo pat rest b
  | c :: rest, 0 =>
    match matchLen pat (c :: rest) with
    | some 0 => [] :: findAllGo pat rest 0
    | some (n + 1) => (c :: rest).take (n + 1) :: findAllGo pat rest n
    | none => findAllGo pat rest 0

/-- `re.findall(pat, s, re.S)` for a pattern without groups: the list of
matched substrings, leftmost first, non-overlapping. -/
def findAll (pat : List RTok) (s : Str) : List Str := findAllGo pat s 0

/-- A literal string as a token sequence. -/
def litToks (s : Str) : List RTok := s.map (fun c => RTok.cls (fun x => x = c))

/-- The citation pattern scheme: `<kw>.*?[ה]?תש[א-ת"]{1,2}.*?[0-9]{4}`
(the greedy `{1,2}` is one class character followed by a greedy optional
one). -/
def citPat (kw : Str) : List RTok :=
  litToks kw ++
  [RTok.lazyAny, RTok.opt (fun c => c = 'ה')] ++
  litToks "תש".toList ++
  [RTok.cls isHebrewOrQuote, RTok.opt isHebrewOrQuote, RTok.lazyAny,
   RTok.cls isDigit09, RTok.cls isDigit09, RTok.cls isDigit09, RTok.cls isDigit09]

/-- `CITATION_RES`, in dict insertion order: the citation pattern scheme
applied to the ten citation keywords. -/
def CITATION_RES : List (List RTok) :=
  [citPat "פקודה".toList, citPat "פקודת".toList, citPat "פקודות".toList,
   citPat "חוק".toList, citPat "תקנה".toList, citPat "תקנת".toList,
   citPat "תקנות".toList, citPat "הוראה".toList, citPat "הוראת".toList,
   citPat "הוראות".toList]

/-- The seven action keywords of `ACTION_RES`, in dict insertion order; each
pattern is the keyword immediately followed by one `[ .;,\s]` character. -/
def ACTION_KEYWORDS : List Str :=
  ["הורה".toList, "הנחה".toList, "פיקח".toList, "קבע".toList,
   "אישר".toList, "התיר".toList, "הכריע".toList]

/-- `ENTITIES_RES`, in dict insertion order (`ה?` is a greedy optional). -/
def ENTITIES_RES : List (List RTok) :=
  [litToks "מפקח ה".toList ++ [RTok.lazyAny, RTok.cls isActionTerm],
   litToks "מפקח על ".toList ++ [RTok.lazyAny, RTok.cls isActionTerm],
   litToks "ממונה על ".toList ++ [RTok.lazyAny, RTok.cls isActionTerm],
   [RTok.opt (fun c => c = 'ה')] ++ litToks "בודק ".toList ++
     [RTok.opt (fun c => c = 'ה')] ++ litToks "מוסמך".toList,
   [RTok.opt (fun c => c = 'ה')] ++ litToks "בונה ".toList ++
     [RTok.opt (fun c => c = 'ה')] ++ litToks "מקצועי".toList,
   litToks "מבצע ".toList ++ [RTok.opt (fun c => c = 'ה')] ++ litToks "בניה".toList,
   litToks "קבלן".toList,
   litToks "מוסד ".toList ++ [RTok.opt (fun c => c = 'ה')] ++ litToks "ביקורת ".toList ++
     [RTok.opt (fun c => c = 'ה')] ++ litToks "מוסמך".toList,
   litToks "מתכנן ".toList ++ [RTok.lazyAny, RTok.cls isActionTerm],
   [RTok.opt (fun c => c = 'ה')] ++ litToks "מוסמך למתן איתות".toList,
   [RTok.opt (fun c => c = 'ה')] ++ litToks "מעסיק".toList]

/-- Head match for an action pattern `<kw>[ .;,\s]`: `some a` when `s`
starts with the keyword followed by a terminator character `a`. -/
def headActionMatch (kw : Str) (s : Str) : Option Char :=
  if kw.isPrefixOf s then
    match s.drop kw.length with
    | a :: _ => if isActionTerm a then some a else none
    | [] => none
  else none

/-- `re.findall` for an action pattern, with the start position of each
match: at each position not covered by a previous match, the pattern matches
exactly when the keyword occurs there immediately followed by a terminator
character, and the match is the keyword plus that character.  `ban` counts
positions still covered by the previous match. -/
def findActionGo (kw : Str) : Str → Nat → Nat → List (Nat × Str)
  | [], _, _ => []
  | _ :: rest, pos, Nat.succ b => findActionGo kw rest (pos + 1) b
  | c :: rest, pos, 0 =>
    match headActionMatch kw (c :: rest) with
    | some a => (pos, kw ++ [a]) :: findActionGo kw rest (pos + 1) kw.length
    | none => findActionGo kw rest (pos + 1) 0

/-- All matches of one action pattern, with start positions. -/
def findAction (kw : Str) (s : Str) : List (Nat × Str) := findActionGo kw s 0 0

/-- `get_citations_from_text` = `apply_filter_on_text(txt, CITATION_RES)`:
matches of all patterns concatenated in catalog order. -/
def get_citations_from_text (txt : Str) : List Str :=
  CITATION_RES.flatMap (fun pat => findAll pat txt)

/-- `get_actions_from_text` = `apply_filter_on_text(txt, ACTION_RES)`. -/
def get_actions_from_text (txt : Str) : List Str :=
  ACTION_KEYWORDS.flatMap (fun kw => (findAction kw txt).map Prod.snd)

/-- `get_entities_from_test` = `apply_filter_on_text(txt, ENTITIES_RES)`
(the typo is the source's). -/
def get_entities_from_test (txt : Str) : List Str :=
  ENTITIES_RES.flatMap (fun pat => findAll pat txt)

/-- The per-document citation collection (parse_laws line 495): the raw
matches, sorted, then filtered by the length threshold.  Note the raw
citation matches are used directly, without `remove_trailing_chars`. -/
def doc_citations (citations : List Str) : List Str :=
  (sortStrings citations).filter (fun x => x.length < LONGEST_POSSIBLE_CITATION_LENGTH)

/-- The per-document action collection (line 493). -/
def doc_actions (txt : Str) : List Str :=
  sortStrings ((get_actions_from_text txt).map remove_trailing_chars)

/-- The per-document entity collection (line 494). -/
def doc_entities (txt : Str) : List Str :=
  sortStrings ((get_entities_from_test txt).map remove_trailing_chars)

/-- The `details` record built for one law: its three collections. -/
structure DocRecord where
  citations : List Str
  actions : List Str
  entities : List Str
deriving DecidableEq

/-- One row of the entity-entity adjacency output of
`write_to_fout_entities_actions`, as the pair of endpoints that the source
formats as `f'{entity}\t{entity2}'`: for every ordered pair of distinct
members of `set(entities)`, one pair per member of `set(actions)`. -/
def write_to_fout_entities_actions_pairs (entities actions : List Str) : List (Str × Str) :=
  entities.dedup.flatMap (fun entity =>
    entities.dedup.flatMap (fun entity2 =>
      if entity = entity2 then []
      else actions.dedup.map (fun _ => (entity, entity2))))

/-- Decimal rendering of a nonnegative integer, as Python's f-string. -/
def natStr (n : Nat) : Str := (Nat.repr n).toList

/-- The body rows of `iter_to_list_of_strings`: Python's
`enumerate(iterable)` with the running index `idx`, each row
`f"{item}\t{x_coord}\t{idx + 1}"`. -/
def coordRows (x_coord : Nat) : List Str → Nat → List Str
  | [], _ => []
  | item :: rest, idx =>
    (item ++ '\t' :: natStr x_coord ++ '\t' :: natStr (idx + 1)) :: coordRows x_coord rest (idx + 1)

/-- `iter_to_list_of_strings`: the header row followed by one row per item
with the fixed X coordinate and the 1-based sequential Y coordinate. -/
def iter_to_list_of_strings (iterable : List Str) (x_coord : Nat) : List Str :=
  "Id\tx_coord\ty_coord".toList :: coordRows x_coord iterable 0

/-- `X_COORDINATES['ACTIONS_X']`. -/
def ACTIONS_X : Nat := 10

/-- `X_COORDINATES['ENTITIES_X']`. -/
def ENTITIES_X : Nat := 20

/-- `X_COORDINATES['LAWS_X']`. -/
def LAWS_X : Nat := 30

/-- `X_COORDINATES['CITATIONS_X']`. -/
def CITATIONS_X : Nat := 40

/-- The lines of the `actions.csv` table built by `write_all_actions`:
`iter_to_list_of_strings(set(map(clean_list_item, actions)), ACTIONS_X)`
(`set` is modelled by `dedup`; its iteration order does not matter to the
claims below). -/
def write_all_actions_lines (actions : List Str) : List Str :=
  iter_to_list_of_strings ((actions.map clean_list_item).dedup) ACTIONS_X

/-- The lines of the `entities.csv` table built by `write_all_entities`. -/
def write_all_entities_lines (entities : List Str) : List Str :=
  iter_to_list_of_strings ((entities.map clean_list_item).dedup) ENTITIES_X

/-- The lines of the `citations.csv` table built by `write_all_citations`. -/
def write_all_citations_lines (citations : List Str) : List Str :=
  iter_to_list_of_strings ((citations.map clean_list_item).dedup) CITATIONS_X

/-- The lines of the `laws.csv` table built by `write_all_laws`. -/
def write_all_laws_lines (laws : List Str) : List Str :=
  iter_to_list_of_strings ((laws.map clean_list_item).dedup) LAWS_X

/-- The three corpus-wide sets `all_actions`, `all_entities`,
`all_citations`. -/
abbrev CorpusSets := Finset Str × Finset Str × Finset Str

/-- One step of the corpus accumulation (parse_laws lines 498-500):
`all_actions.update(set(actions))` and likewise for entities and
citations. -/
def corpus_fold (acc : CorpusSets) (r : DocRecord) : CorpusSets :=
  (acc.1 ∪ r.actions.toFinset, acc.2.1 ∪ r.entities.toFinset, acc.2.2 ∪ r.citations.toFinset)

/-- The mutable state of `parse_laws`: the `laws` dict (insertion-ordered),
the three corpus-wide sets and the three running totals. -/
structure ParseAcc where
  laws : List (Str × DocRecord)
  all_actions : Finset Str
  all_entities : Finset Str
  all_citations : Finset Str
  tot_cites : Nat
  tot_actions : Nat
  tot_entities : Nat
deriving DecidableEq

/-- The initial state of `parse_laws` (lines 475-481). -/
def initParseAcc : ParseAcc :=
  { laws := [], all_actions := ∅, all_entities := ∅, all_citations := ∅,
    tot_cites := 0, tot_actions := 0, tot_entities := 0 }

/-- The body of the `parse_laws` loop for one law whose text was obtained
successfully (lines 485-503).  In the source, `remove_weird_unicode` is
applied right after HTML body extraction and before the windows-1252/1255
re-decoding (line 491); the fallible steps of lines 487-491 (file open,
BeautifulSoup, re-encoding) are upstream collaborators modelled by the
`Except`-valued document input of `parse_laws` below, so here they have
already produced `txt`. -/
def fold_doc (st : ParseAcc) (name : Str) (txt : Str) : ParseAcc :=
  let txt := remove_weird_unicode txt
  let citations := get_citations_from_text txt
  let actions := doc_actions txt
  let entities := doc_entities txt
  let record : DocRecord :=
    { citations := doc_citations citations, actions := actions, entities := entities }
  { laws := st.laws ++ [(name, record)],
    all_actions := st.all_actions ∪ actions.toFinset,
    all_entities := st.all_entities ∪ entities.toFinset,
    all_citations := st.all_citations ∪ (doc_citations citations).toFinset,
    tot_cites := st.tot_cites + citations.length,
    tot_actions := st.tot_actions + actions.length,
    tot_entities := st.tot_entities + entities.length }

/-- The `parse_laws` loop over the documents of the input directory.  Each
document is a name together with the result of the upstream steps that can
raise (file open, HTML body extraction, windows-1252/1255 re-decoding,
lines 487-491); the loop body contains no exception handler, so an error
propagates out of the whole loop at once. -/
def parse_laws_go (st : ParseAcc) : List (Str × Except Unit Str) → Except Unit ParseAcc
  | [] => Except.ok st
  | (_, Except.error e) :: _ => Except.error e
  | (name, Except.ok txt) :: rest => parse_laws_go (fold_doc st name txt) rest

/-- `parse_laws` on a corpus of documents. -/
def parse_laws (docs : List (Str × Except Unit Str)) : Except Unit ParseAcc :=
  parse_laws_go initParseAcc docs

/-- Whether an `Except` value is a success. -/
def exceptOk : Except Unit α → Bool
  | Except.ok _ => true
  | Except.error _ => false

/-- Occurrence count of a value in a list. -/
def countOcc [DecidableEq α] (x : α) : List α → Nat
  | [] => 0
  | a :: as => (if a = x then 1 else 0) + countOcc x as

section Lemmas

lemma countOcc_append [DecidableEq α] (x : α) (l₁ l₂ : List α) :
    countOcc x (l₁ ++ l₂) = countOcc x l₁ + countOcc x l₂ := by
  induction l₁ with
  | nil => simp [countOcc]
  | cons a as ih => simp [countOcc, ih]; omega

lemma countOcc_eq_zero [DecidableEq α] (x : α) (l : List α) (h : x ∉ l) :
    countOcc x l = 0 := by
  induction l with
  | nil => rfl
  | cons a as ih =>
    simp only [List.mem_cons, not_or] at h
    simp [countOcc, Ne.symm h.1, ih h.2]

lemma countOcc_map_const [DecidableEq β] (x y : β) (l : List α) :
    countOcc x (l.map (fun _ => y)) = if y = x then l.length else 0 := by
  induction l with
  | nil => simp [countOcc]
  | cons a as ih =>
    simp only [List.map_cons, countOcc, ih]
    split <;> simp [Nat.add_comm]

lemma countOcc_flatMap [DecidableEq β] (x : β) (l : List α) (f : α → List β) :
    countOcc x (l.flatMap f) = (l.map (fun a => countOcc x (f a))).sum := by
  induction l with
  | nil => rfl
  | cons a as ih => simp [List.flatMap_cons, countOcc_append, ih]

lemma sum_map_single [DecidableEq α] (l : List α) (g : α → Nat) (A : α)
    (hA : A ∈ l) (hnd : l.Nodup) (hz : ∀ b ∈ l, b ≠ A → g b = 0) :
    (l.map g).sum = g A := by
  induction l with
  | nil => cases hA
  | cons a as ih =>
    rcases List.mem_cons.mp hA with rfl | hA'
    · have hz0 : (as.map g).sum = 0 := List.sum_eq_zero (by
        intro x hx
        obtain ⟨b, hb, rfl⟩ := List.mem_map.mp hx
        exact hz b (List.mem_cons_of_mem _ hb) (fun he => (List.nodup_cons.mp hnd).1 (he ▸ hb)))
      simp [hz0]
    · have ha : g a = 0 :=
        hz a (List.mem_cons_self _ _) (fun he => (List.nodup_cons.mp hnd).1 (he ▸ hA'))
      simp [ha, ih hA' (List.nodup_cons.mp hnd).2
        (fun b hb hne => hz b (List.mem_cons_of_mem _ hb) hne)]

lemma mem_insertLe (le : Str → Str → Bool) (a x : Str) (l : List Str) :
    a ∈ insertLe le x l ↔ a = x ∨ a ∈ l := by
  induction l with
  | nil => simp [insertLe]
  | cons b bs ih =>
    simp only [insertLe]
    split
    · simp
    · simp [ih]; tauto

lemma mem_sortLe (le : Str → Str → Bool) (a : Str) (l : List Str) :
    a ∈ sortLe le l ↔ a ∈ l := by
  induction l with
  | nil => simp [sortLe]
  | cons b bs ih => simp [sortLe, mem_insertLe, ih]

lemma mem_sortStrings (a : Str) (l : List Str) : a ∈ sortStrings l ↔ a ∈ l :=
  mem_sortLe lexLe a l

lemma mem_doc_citations (c : Str) (citations : List Str) :
    c ∈ doc_citations citations ↔
      c ∈ citations ∧ c.length < LONGEST_POSSIBLE_CITATION_LENGTH := by
  simp [doc_citations, List.mem_filter, mem_sortStrings]

lemma dropWhile_dropWhile (p : α → Bool) (l : List α) :
    (l.dropWhile p).dropWhile p = l.dropWhile p := by
  induction l with
  | nil => rfl
  | cons a as ih =>
    by_cases h : p a
    · simp [List.dropWhile_cons, h, ih]
    · simp [List.dropWhile_cons, h]

lemma remove_trailing_chars_idem (s : Str) :
    remove_trailing_chars (remove_trailing_chars s) = remove_trailing_chars s := by
  simp [remove_trailing_chars, List.reverse_reverse, dropWhile_dropWhile]

lemma weird_map_fixed (c : Char) :
    (fun c => if c ∈ UNICODE_CHARS_TO_IGNORE then ' ' else c)
      ((fun c => if c ∈ UNICODE_CHARS_TO_IGNORE then ' ' else c) c)
      = (fun c => if c ∈ UNICODE_CHARS_TO_IGNORE then ' ' else c) c := by
  by_cases h : c ∈ UNICODE_CHARS_TO_IGNORE <;> simp [h]

lemma mem_remove_trailing_chars (c : Char) (s : Str) (h : c ∈ remove_trailing_chars s) :
    c ∈ s := by
  have h1 : c ∈ s.reverse :=
    List.Sublist.mem (by simpa [remove_trailing_chars, List.mem_reverse] using h)
      (List.dropWhile_sublist _)
  exact List.mem_reverse.mp h1

lemma remove_weird_unicode_of_fixed (s : Str)
    (h : ∀ c ∈ s, (if c ∈ UNICODE_CHARS_TO_IGNORE then ' ' else c) = c) :
    remove_weird_unicode s = s := by
  unfold remove_weird_unicode
  calc s.map _ = s.map id := List.map_congr_left h
  _ = s := List.map_id s

end Lemmas

/-- C5.  The normalizer is idempotent: replacing each incidental-Unicode
character with a space and then stripping trailing terminator characters a
second time changes nothing. -/
theorem normalize_idempotent (x : Str) : normalize (normalize x) = normalize x := by
  unfold normalize
  have h1 : remove_weird_unicode (remove_trailing_chars (remove_weird_unicode x))
      = remove_trailing_chars (remove_weird_unicode x) := by
    apply remove_weird_unicode_of_fixed
    intro c hc
    have hc' : c ∈ remove_weird_unicode x := mem_remove_trailing_chars c _ hc
    obtain ⟨c0, _, rfl⟩ := List.mem_map.mp hc'
    exact weird_map_fixed c0
  rw [h1, remove_trailing_chars_idem]

/-- C4.  The per-document citation filter retains an extracted citation
exactly when its length is below `LONGEST_POSSIBLE_CITATION_LENGTH` and
excludes it exactly when its length reaches the threshold. -/
theorem citation_length_filter (citations : List Str) (c : Str) (hc : c ∈ citations) :
    (c ∈ doc_citations citations ↔ c.length < LONGEST_POSSIBLE_CITATION_LENGTH)
    ∧ (c ∉ doc_citations citations ↔ LONGEST_POSSIBLE_CITATION_LENGTH ≤ c.length) := by
  constructor
  · simp [mem_doc_citations, hc]
  · simp [mem_doc_citations, hc]

/-- Witness for C4 at a concrete input: a short citation is retained, so
both equivalences are inhabited concretely. -/
theorem citation_length_filter_witness :
    (("קבלן".toList ∈ doc_citations ["קבלן".toList]
        ↔ ("קבלן".toList).length < LONGEST_POSSIBLE_CITATION_LENGTH)
      ∧ ("קבלן".toList ∉ doc_citations ["קבלן".toList]
        ↔ LONGEST_POSSIBLE_CITATION_LENGTH ≤ ("קבלן".toList).length)) :=
  citation_length_filter ["קבלן".toList] "קבלן".toList (by decide)

lemma collapseRuns_no_newline (b : Bool) (s : Str) : '\n' ∉ collapseRuns b s := by
  induction s generalizing b with
  | nil => simp [collapseRuns]
  | cons c rest ih =>
    by_cases hc : c = '\n'
    · subst hc
      cases b <;> simp [collapseRuns, ih]
    · simp [collapseRuns, hc, ih, Ne.symm hc]

/-- C9.  Every value passed to `write_list_out` is first run through
`clean_list_item`, which replaces each maximal run of newlines by a single
space; consequently no emitted value contains a newline (only the `\r\n`
line terminator appended after it does). -/
theorem output_values_no_newline :
    (∀ s : Str, '\n' ∉ clean_list_item s)
    ∧ ∀ (enum : List Str) (line : Str), line ∈ write_list_out_lines enum →
        ∃ e, e ∈ enum ∧ line = clean_list_item e ++ ['\r', '\n']
          ∧ '\n' ∉ clean_list_item e := by
  constructor
  · intro s; exact collapseRuns_no_newline false s
  · intro enum line h
    obtain ⟨e, he, rfl⟩ := List.mem_map.mp h
    exact ⟨e, he, rfl, collapseRuns_no_newline false e⟩

/-- Witness for C9 at a concrete input containing a newline run. -/
theorem output_values_no_newline_witness :
    ∃ e, e ∈ ["a\n\nb".toList]
      ∧ clean_list_item "a\n\nb".toList ++ ['\r', '\n'] = clean_list_item e ++ ['\r', '\n']
      ∧ '\n' ∉ clean_list_item e :=
  output_values_no_newline.2 ["a\n\nb".toList]
    (clean_list_item "a\n\nb".toList ++ ['\r', '\n']) (by decide)

lemma coordRows_length (x : Nat) (l : List Str) (idx : Nat) :
    (coordRows x l idx).length = l.length := by
  induction l generalizing idx with
  | nil => rfl
  | cons a as ih => simp [coordRows, ih]

lemma coordRows_getElem (x : Nat) (l : List Str) (idx i : Nat) :
    (coordRows x l idx)[i]?
      = (l[i]?).map (fun item => item ++ '\t' :: natStr x ++ '\t' :: natStr (idx + i + 1)) := by
  induction l generalizing idx i with
  | nil => simp [coordRows]
  | cons a as ih =>
    cases i with
    | zero => simp [coordRows]
    | succ n =>
      simp only [coordRows, List.getElem?_cons_succ, ih (idx + 1) n]
      have h : idx + 1 + n + 1 = idx + (n + 1) + 1 := by omega
      rw [h]

/-- C8.  Each global listing table is one header row followed by one row per
unique item, each row being the item, a tab, the fixed X coordinate, a tab
and the 1-based sequential Y coordinate; the four tables use the four
pairwise-distinct X coordinates 10, 20, 30, 40. -/
theorem listing_tables_format (items : List Str) (x : Nat) (i : Nat) :
    (iter_to_list_of_strings items x).head? = some "Id\tx_coord\ty_coord".toList
    ∧ (iter_to_list_of_strings items x).length = items.length + 1
    ∧ (iter_to_list_of_strings items x)[i + 1]?
        = (items[i]?).map (fun item => item ++ '\t' :: natStr x ++ '\t' :: natStr (i + 1))
    ∧ write_all_actions_lines items
        = iter_to_list_of_strings ((items.map clean_list_item).dedup) ACTIONS_X
    ∧ write_all_entities_lines items
        = iter_to_list_of_strings ((items.map clean_list_item).dedup) ENTITIES_X
    ∧ write_all_citations_lines items
        = iter_to_list_of_strings ((items.map clean_list_item).dedup) CITATIONS_X
    ∧ write_all_laws_lines items
        = iter_to_list_of_strings ((items.map clean_list_item).dedup) LAWS_X
    ∧ ([ACTIONS_X, ENTITIES_X, LAWS_X, CITATIONS_X] : List Nat).Nodup := by
  refine ⟨rfl, ?_, ?_, rfl, rfl, rfl, rfl, by decide⟩
  · simp [iter_to_list_of_strings, coordRows_length]
  · simp only [iter_to_list_of_strings, List.getElem?_cons_succ]
    rw [coordRows_getElem]
    simp

lemma flatMap_const_nil (l : List α) : l.flatMap (fun _ => ([] : List β)) = [] := by
  induction l with
  | nil => rfl
  | cons a as ih => simp [List.flatMap_cons, ih]

/-- C1.  The entity-entity edge builder emits each ordered pair of distinct
entities of the document with multiplicity exactly the number of distinct
actions, never emits a self-pair, and emits nothing when the document has no
actions. -/
theorem entity_entity_edge_multiplicity (entities actions : List Str) (A B : Str) :
    (A ∈ entities → B ∈ entities → A ≠ B →
      countOcc (A, B) (write_to_fout_entities_actions_pairs entities actions)
        = actions.dedup.length)
    ∧ countOcc (A, A) (write_to_fout_entities_actions_pairs entities actions) = 0
    ∧ (actions = [] → write_to_fout_entities_actions_pairs entities actions = []) := by
  refine ⟨?_, ?_, ?_⟩
  · intro hA hB hAB
    unfold write_to_fout_entities_actions_pairs
    rw [countOcc_flatMap,
      sum_map_single _ _ A (List.mem_dedup.mpr hA) (List.nodup_dedup entities) ?_,
      countOcc_flatMap,
      sum_map_single _ _ B (List.mem_dedup.mpr hB) (List.nodup_dedup entities) ?_]
    · rw [if_neg hAB, countOcc_map_const]
      simp
    · intro b _ hbB
      by_cases h : A = b
      · simp [← h, countOcc]
      · rw [if_neg h, countOcc_map_const]
        simp [Prod.ext_iff, hbB]
    · intro e _ heA
      apply countOcc_eq_zero
      intro hmem
      obtain ⟨e2, _, hmem2⟩ := List.mem_flatMap.mp hmem
      by_cases h : e = e2
      · simp [h] at hmem2
      · rw [if_neg h] at hmem2
        obtain ⟨_, _, heq⟩ := List.mem_map.mp hmem2
        exact heA (congrArg Prod.fst heq)
  · apply countOcc_eq_zero
    intro hmem
    unfold write_to_fout_entities_actions_pairs at hmem
    obtain ⟨e, _, hmem2⟩ := List.mem_flatMap.mp hmem
    obtain ⟨e2, _, hmem3⟩ := List.mem_flatMap.mp hmem2
    by_cases h : e = e2
    · simp [h] at hmem3
    · rw [if_neg h] at hmem3
      obtain ⟨_, _, heq⟩ := List.mem_map.mp hmem3
      exact h ((congrArg Prod.fst heq).trans (congrArg Prod.snd heq).symm)
  · intro h
    subst h
    simp [write_to_fout_entities_actions_pairs, ite_self, flatMap_const_nil]

/-- Witness for C1: two entities and two distinct actions give the ordered
pair multiplicity 2. -/
theorem entity_entity_edge_multiplicity_witness :
    countOcc ("א".toList, "ב".toList)
      (write_to_fout_entities_actions_pairs ["א".toList, "ב".toList]
        ["פ".toList, "ק".toList])
      = (["פ".toList, "ק".toList] : List Str).dedup.length :=
  (entity_entity_edge_multiplicity ["א".toList, "ב".toList]
    ["פ".toList, "ק".toList] "א".toList "ב".toList).1 (by decide) (by decide) (by decide)

/-- C7.  The corpus fold is order-independent: folding the document records
in any order yields the same three corpus-wide sets. -/
theorem corpus_fold_order_independent (l₁ l₂ : List DocRecord) (h : l₁.Perm l₂) :
    ∀ acc : CorpusSets, List.foldl corpus_fold acc l₁ = List.foldl corpus_fold acc l₂ := by
  induction h with
  | nil => intro acc; rfl
  | cons x p ih => intro acc; simp only [List.foldl_cons]; exact ih _
  | swap x y l =>
    intro acc
    simp only [List.foldl_cons]
    congr 1
    simp only [corpus_fold, Prod.mk.injEq]
    exact ⟨Finset.union_right_comm _ _ _,
      Finset.union_right_comm _ _ _, Finset.union_right_comm _ _ _⟩
  | trans p1 p2 ih1 ih2 => intro acc; rw [ih1 acc, ih2 acc]

/-- Witness for C7: two concrete records folded in both orders. -/
theorem corpus_fold_order_independent_witness :
    List.foldl corpus_fold (∅, ∅, ∅)
        [DocRecord.mk [['a']] [['b']] [['c']], DocRecord.mk [['d']] [['e']] [['f']]]
      = List.foldl corpus_fold (∅, ∅, ∅)
        [DocRecord.mk [['d']] [['e']] [['f']], DocRecord.mk [['a']] [['b']] [['c']]] :=
  corpus_fold_order_independent _ _ (by decide) _

/-- C3 counterexample.  A document whose upstream extraction fails aborts
the whole `parse_laws` run with the propagated error (the following document
is never processed and no summary state is returned), while the same corpus
without the failing document succeeds. -/
theorem parse_laws_abort_counterexample :
    parse_laws [("a.htm".toList, Except.error ()),
        ("b.htm".toList, Except.ok "קבלן ".toList)] = Except.error ()
    ∧ exceptOk (parse_laws [("b.htm".toList, Except.ok "קבלן ".toList)]) = true :=
  ⟨rfl, rfl⟩

/-- C3 (amended).  The `parse_laws` loop has no per-document error handling:
it returns the propagated error as soon as a document's extraction fails,
regardless of the documents after it, and returns a summary state only when
every document succeeds. -/
theorem parse_laws_abort (st : ParseAcc) (name : Str)
    (post : List (Str × Except Unit Str)) :
    parse_laws_go st ((name, Except.error ()) :: post) = Except.error ()
    ∧ ∀ docs : List (Str × Except Unit Str),
        (∀ d ∈ docs, exceptOk d.2 = true) → exceptOk (parse_laws docs) = true := by
  constructor
  · rfl
  · have go : ∀ (docs : List (Str × Except Unit Str)) (st' : ParseAcc),
        (∀ d ∈ docs, exceptOk d.2 = true) → exceptOk (parse_laws_go st' docs) = true := by
      intro docs
      induction docs with
      | nil => intro st' _; rfl
      | cons d rest ih =>
        intro st' h
        obtain ⟨nm, r⟩ := d
        cases r with
        | error e =>
          have := h _ (List.mem_cons_self _ _)
          simp [exceptOk] at this
        | ok txt => exact ih _ (fun d hd => h d (List.mem_cons_of_mem _ hd))
    intro docs h
    exact go docs initParseAcc h

/-- Witness for C3's amended statement at concrete inputs. -/
theorem parse_laws_abort_witness :
    parse_laws_go initParseAcc [("a.htm".toList, Except.error ())] = Except.error ()
    ∧ exceptOk (parse_laws [("b.htm".toList, Except.ok [])]) = true :=
  ⟨(parse_laws_abort initParseAcc "a.htm".toList []).1,
   (parse_laws_abort initParseAcc "a.htm".toList []).2
     [("b.htm".toList, Except.ok [])] (by decide)⟩

lemma headActionMatch_some (kw s : Str) (a : Char) (h : headActionMatch kw s = some a) :
    isActionTerm a = true ∧ ∃ v, s = kw ++ a :: v := by
  unfold headActionMatch at h
  split at h
  case isTrue hpre =>
    split at h
    case h_1 a' t heq =>
      split at h
      case isTrue hterm =>
        obtain rfl := Option.some.inj h
        refine ⟨hterm, t, ?_⟩
        have h2 : kw = s.take kw.length :=
          List.prefix_iff_eq_take.mp (List.isPrefixOf_iff_prefix.mp hpre)
        calc s = s.take kw.length ++ s.drop kw.length := (List.take_append_drop _ _).symm
        _ = kw ++ a' :: t := by rw [← h2, heq]
      case isFalse => exact absurd h (by simp)
    case h_2 => exact absurd h (by simp)
  case isFalse => exact absurd h (by simp)

lemma headActionMatch_of (kw v : Str) (a : Char) (ha : isActionTerm a = true) :
    headActionMatch kw (kw ++ a :: v) = some a := by
  unfold headActionMatch
  rw [if_pos (List.isPrefixOf_iff_prefix.mpr (List.prefix_append _ _))]
  rw [List.drop_left]
  simp [ha]

lemma findActionGo_sound (kw : Str) (s : Str) :
    ∀ (pos ban : Nat) (x : Nat × Str), x ∈ findActionGo kw s pos ban →
      ∃ j a v, x = (pos + j, kw ++ [a]) ∧ isActionTerm a = true
        ∧ s.drop j = kw ++ a :: v := by
  induction s with
  | nil => intro pos ban x hx; simp [findActionGo] at hx
  | cons c rest ih =>
    intro pos ban x hx
    cases ban with
    | succ b =>
      obtain ⟨j, a, v, hxx, hterm, hdrop⟩ :=
        ih (pos + 1) b x (by simpa [findActionGo] using hx)
      refine ⟨j + 1, a, v, ?_, hterm, ?_⟩
      · rw [hxx]
        have h1 : pos + 1 + j = pos + (j + 1) := by omega
        rw [h1]
      · rw [List.drop_succ_cons]; exact hdrop
    | zero =>
      cases hh : headActionMatch kw (c :: rest) with
      | none =>
        obtain ⟨j, a, v, hxx, hterm, hdrop⟩ :=
          ih (pos + 1) 0 x (by simpa [findActionGo, hh] using hx)
        refine ⟨j + 1, a, v, ?_, hterm, ?_⟩
        · rw [hxx]
          have h1 : pos + 1 + j = pos + (j + 1) := by omega
          rw [h1]
        · rw [List.drop_succ_cons]; exact hdrop
      | some a0 =>
        have hx' : x = (pos, kw ++ [a0]) ∨ x ∈ findActionGo kw rest (pos + 1) kw.length := by
          simpa [findActionGo, hh] using hx
        rcases hx' with rfl | hx'
        · obtain ⟨hterm, v, hs⟩ := headActionMatch_some kw _ a0 hh
          exact ⟨0, a0, v, by simp, hterm, by simpa using hs⟩
        · obtain ⟨j, a, v, hxx, hterm, hdrop⟩ := ih (pos + 1) kw.length x hx'
          refine ⟨j + 1, a, v, ?_, hterm, ?_⟩
          · rw [hxx]
            have h1 : pos + 1 + j = pos + (j + 1) := by omega
            rw [h1]
          · rw [List.drop_succ_cons]; exact hdrop

lemma findActionGo_complete (kw : Str) (hkw : ∀ c ∈ kw, isActionTerm c = false) (s : Str) :
    ∀ (pos ban q : Nat) (a : Char) (v : Str), ban ≤ q →
      s.drop q = kw ++ a :: v → isActionTerm a = true →
      (pos + q, kw ++ [a]) ∈ findActionGo kw s pos ban := by
  induction s with
  | nil =>
    intro pos ban q a v _ hdrop _
    rw [List.drop_nil] at hdrop
    exact absurd hdrop (by simp)
  | cons c rest ih =>
    intro pos ban q a v hban hdrop hterm
    cases ban with
    | succ b =>
      obtain ⟨q', rfl⟩ : ∃ q', q = q' + 1 := ⟨q - 1, by omega⟩
      rw [List.drop_succ_cons] at hdrop
      have hmem := ih (pos + 1) b q' a v (by omega) hdrop hterm
      have h1 : pos + 1 + q' = pos + (q' + 1) := by omega
      simp only [findActionGo]
      rw [← h1]
      exact hmem
    | zero =>
      cases hh : headActionMatch kw (c :: rest) with
      | some a0 =>
        obtain ⟨hterm0, v0, hs⟩ := headActionMatch_some kw _ a0 hh
        cases q with
        | zero =>
          rw [List.drop_zero] at hdrop
          have h2 : kw ++ a0 :: v0 = kw ++ a :: v := hs.symm.trans hdrop
          obtain ⟨rfl, rfl⟩ : a0 = a ∧ v0 = v := by
            have h3 := List.append_cancel_left h2
            exact ⟨List.head_eq_of_cons_eq h3, List.tail_eq_of_cons_eq h3⟩
          simp [findActionGo, hh]
        | succ q' =>
          have hq : kw.length + 1 ≤ q' + 1 := by
            by_contra hlt
            push_neg at hlt
            have hle : q' + 1 ≤ kw.length := by omega
            have e1 : (c :: rest)[kw.length]? = some a0 := by
              rw [hs, List.getElem?_append_right (le_refl _)]
              simp
            have e2 : (c :: rest)[kw.length]? = kw[kw.length - (q' + 1)]? := by
              have h4 : (c :: rest)[(q' + 1) + (kw.length - (q' + 1))]?
                  = (kw ++ a :: v)[kw.length - (q' + 1)]? := by
                rw [← hdrop, List.getElem?_drop]
              have h5 : (q' + 1) + (kw.length - (q' + 1)) = kw.length := by omega
              rw [h5] at h4
              rw [h4, List.getElem?_append]
              rw [if_pos (by omega)]
            have e3 : kw[kw.length - (q' + 1)]? = some a0 := e2 ▸ e1
            obtain ⟨hlt2, hval⟩ := List.getElem?_eq_some.mp e3
            have : a0 ∈ kw := hval ▸ List.getElem_mem hlt2
            rw [hkw a0 this] at hterm0
            exact Bool.false_ne_true hterm0
          rw [List.drop_succ_cons] at hdrop
          have hmem := ih (pos + 1) kw.length q' a v (by omega) hdrop hterm
          have h1 : pos + 1 + q' = pos + (q' + 1) := by omega
          simp only [findActionGo, hh]
          rw [← h1]
          exact List.mem_cons_of_mem _ hmem
      | none =>
        cases q with
        | zero =>
          rw [List.drop_zero] at hdrop
          have h6 := headActionMatch_of kw v a hterm
          rw [← hdrop, hh] at h6
          exact absurd h6 (by simp)
        | succ q' =>
          rw [List.drop_succ_cons] at hdrop
          have hmem := ih (pos + 1) 0 q' a v (by omega) hdrop hterm
          have h1 : pos + 1 + q' = pos + (q' + 1) := by omega
          simp only [findActionGo, hh]
          rw [← h1]
          exact hmem

/-- C6.  An action pattern never matches the keyword when it is followed by
a non-boundary character (e.g. as a prefix of a longer word), and always
matches the keyword when it is immediately followed by a terminator
character (space, period, semicolon, comma or other whitespace). -/
theorem action_word_boundary (kw : Str) (hkw : kw ∈ ACTION_KEYWORDS)
    (u v : Str) (c : Char) :
    (isActionTerm c = false →
      ∀ m : Str, (u.length, m) ∉ findAction kw (u ++ kw ++ c :: v))
    ∧ (isActionTerm c = true →
      (u.length, kw ++ [c]) ∈ findAction kw (u ++ kw ++ c :: v)) := by
  have hfree : ∀ ch ∈ kw, isActionTerm ch = false := by
    have hall : ∀ kw' ∈ ACTION_KEYWORDS, ∀ ch ∈ kw', isActionTerm ch = false := by decide
    exact hall kw hkw
  have hdl : (u ++ kw ++ c :: v).drop u.length = kw ++ c :: v := by
    rw [List.append_assoc]
    exact List.drop_left _ _
  constructor
  · intro hc m hmem
    obtain ⟨j, a, v', hx, hterm, hdrop⟩ := findActionGo_sound kw _ 0 0 _ hmem
    have hj : j = u.length := by
      have h1 := congrArg Prod.fst hx
      simp at h1
      omega
    subst hj
    rw [hdl] at hdrop
    have h2 := List.append_cancel_left hdrop
    have h3 : c = a := List.head_eq_of_cons_eq h2
    rw [← h3] at hterm
    rw [hc] at hterm
    exact Bool.false_ne_true hterm
  · intro hc
    have h4 := findActionGo_complete kw hfree (u ++ kw ++ c :: v) 0 0 u.length c v
      (by omega) hdl hc
    simpa using h4

/-- Witness for C6: the keyword followed by a period, after a nonempty
prefix, is matched at exactly the keyword's position. -/
theorem action_word_boundary_witness :
    (("א ".toList).length, "הורה".toList ++ ['.'])
      ∈ findAction "הורה".toList ("א ".toList ++ "הורה".toList ++ '.' :: []) :=
  (action_word_boundary "הורה".toList (by decide) "א ".toList [] '.').2 (by decide)

/-- C10.  A match of an action pattern always extends one character past the
keyword, so a keyword occurrence at the very end of the text is never
matched: every reported match position lies strictly before the final
keyword occurrence. -/
theorem action_needs_following_terminator (kw : Str) (_hkw : kw ∈ ACTION_KEYWORDS)
    (p : Str) (x : Nat × Str) (hx : x ∈ findAction kw (p ++ kw)) :
    x.1 < p.length := by
  obtain ⟨j, a, v, hxx, hterm, hdrop⟩ := findActionGo_sound kw _ 0 0 x hx
  have hlen := congrArg List.length hdrop
  rw [List.length_drop, List.length_append] at hlen
  simp only [List.length_append, List.length_cons] at hlen
  have hx1 : x.1 = j := by
    have h1 := congrArg Prod.fst hxx
    simpa using h1
  omega

/-- Witness for C10: a keyword occurrence at the very end after a matched
occurrence; the only match starts before the final occurrence. -/
theorem action_needs_following_terminator_witness :
    ((0, "הורה ".toList) : Nat × Str).1 < ("הורה ".toList).length :=
  action_needs_following_terminator "הורה".toList (by decide) "הורה ".toList
    (0, "הורה ".toList) (by decide)

lemma matchLen_ends (p : Char → Bool) (ps : List RTok) :
    ∀ (s : Str) (n : Nat), matchLen (ps ++ [RTok.cls p]) s = some n →
      ∃ l c, s.take n = l ++ [c] ∧ p c = true := by
  induction ps with
  | nil =>
    intro s n h
    cases s with
    | nil => simp [matchLen] at h
    | cons c s' =>
      simp only [List.nil_append, matchLen] at h
      split at h
      case isTrue hc =>
        simp only [matchLen, Option.map_some'] at h
        obtain rfl := Option.some.inj h
        exact ⟨[], c, by simp, hc⟩
      case isFalse => exact absurd h (by simp)
  | cons t ps' ih =>
    intro s n h
    cases t with
    | cls q =>
      cases s with
      | nil => simp [matchLen] at h
      | cons c s' =>
        simp only [List.cons_append, matchLen] at h
        split at h
        case isTrue hc =>
          obtain ⟨n', hn', rfl⟩ := Option.map_eq_some'.mp h
          obtain ⟨l, ch, hl, hch⟩ := ih s' n' hn'
          exact ⟨c :: l, ch, by rw [List.take_succ_cons, hl]; rfl, hch⟩
        case isFalse => exact absurd h (by simp)
    | lazyAny =>
      simp only [List.cons_append, matchLen] at h
      obtain ⟨k, _, hfk⟩ := List.exists_of_findSome?_eq_some h
      obtain ⟨m, hm, rfl⟩ := Option.map_eq_some'.mp hfk
      obtain ⟨l, ch, hl, hch⟩ := ih (s.drop k) m hm
      refine ⟨s.take k ++ l, ch, ?_, hch⟩
      rw [Nat.add_comm m k, List.take_add, hl, List.append_assoc]
    | opt q =>
      cases s with
      | nil =>
        simp only [List.cons_append, matchLen] at h
        exact ih [] n h
      | cons c s' =>
        simp only [List.cons_append, matchLen] at h
        split at h
        case isTrue hc =>
          split at h
          case h_1 n' hn' =>
            obtain rfl := Option.some.inj h
            obtain ⟨l, ch, hl, hch⟩ := ih s' n' hn'
            exact ⟨c :: l, ch, by rw [List.take_succ_cons, hl]; rfl, hch⟩
          case h_2 => exact ih (c :: s') n h
        case isFalse => exact ih (c :: s') n h

lemma findAllGo_sound (pat : List RTok) (s : Str) :
    ∀ (ban : Nat) (m : Str), m ∈ findAllGo pat s ban →
      ∃ t n, matchLen pat t = some n ∧ m = t.take n := by
  induction s with
  | nil =>
    intro ban m hm
    cases ban with
    | succ b => simp [findAllGo] at hm
    | zero =>
      cases hml : matchLen pat [] with
      | some k =>
        have hm' : m = [] := by simpa [findAllGo, hml] using hm
        exact ⟨[], k, hml, by simp [hm']⟩
      | none => simp [findAllGo, hml] at hm
  | cons c rest ih =>
    intro ban m hm
    cases ban with
    | succ b => exact ih b m (by simpa [findAllGo] using hm)
    | zero =>
      cases hml : matchLen pat (c :: rest) with
      | none => exact ih 0 m (by simpa [findAllGo, hml] using hm)
      | some n0 =>
        cases n0 with
        | zero =>
          have hm' : m = [] ∨ m ∈ findAllGo pat rest 0 := by
            simpa [findAllGo, hml] using hm
          rcases hm' with rfl | hm'
          · exact ⟨c :: rest, 0, hml, rfl⟩
          · exact ih 0 m hm'
        | succ n =>
          have hm' : m = (c :: rest).take (n + 1) ∨ m ∈ findAllGo pat rest n := by
            simpa [findAllGo, hml] using hm
          rcases hm' with rfl | hm'
          · exact ⟨c :: rest, n + 1, hml, rfl⟩
          · exact ih n m hm'

lemma citPat_shape (kw : Str) : ∃ ps, citPat kw = ps ++ [RTok.cls isDigit09] := by
  refine ⟨litToks kw ++ [RTok.lazyAny, RTok.opt (fun c => c = 'ה')] ++ litToks "תש".toList ++
    [RTok.cls isHebrewOrQuote, RTok.opt isHebrewOrQuote, RTok.lazyAny,
     RTok.cls isDigit09, RTok.cls isDigit09, RTok.cls isDigit09], ?_⟩
  simp [citPat]

lemma CITATION_RES_shape (pat : List RTok) (hp : pat ∈ CITATION_RES) :
    ∃ ps, pat = ps ++ [RTok.cls isDigit09] := by
  simp only [CITATION_RES, List.mem_cons, List.not_mem_nil, or_false] at hp
  rcases hp with rfl | rfl | rfl | rfl | rfl | rfl | rfl | rfl | rfl | rfl
  all_goals exact citPat_shape _

lemma get_citations_end_digit (txt : Str) (m : Str)
    (hm : m ∈ get_citations_from_text txt) :
    ∃ l d, m = l ++ [d] ∧ isDigit09 d = true := by
  obtain ⟨pat, hpat, hm2⟩ := List.mem_flatMap.mp hm
  obtain ⟨ps, rfl⟩ := CITATION_RES_shape pat hpat
  obtain ⟨t, n, hml, rfl⟩ := findAllGo_sound _ txt 0 m (by simpa [findAll] using hm2)
  obtain ⟨l, d, hl, hd⟩ := matchLen_ends isDigit09 ps t n hml
  exact ⟨l, d, hl, hd⟩

lemma digit_not_term (d : Char) (hd : isDigit09 d = true) : isTermChar d = false := by
  simp only [isDigit09, Bool.and_eq_true, decide_eq_true_eq] at hd
  simp only [isTermChar, isPythonSpace, Bool.or_eq_false_iff, Bool.and_eq_false_iff,
    beq_eq_false_iff_ne, ne_eq, decide_eq_false_iff_not, not_le]
  omega

lemma remove_trailing_chars_of_end (m l : Str) (d : Char) (hm : m = l ++ [d])
    (hd : isTermChar d = false) : remove_trailing_chars m = m := by
  subst hm
  unfold remove_trailing_chars
  rw [List.reverse_append]
  simp [List.dropWhile_cons, hd]

lemma map_rtc_citations (txt : Str) :
    (get_citations_from_text txt).map remove_trailing_chars
      = get_citations_from_text txt := by
  have h : ∀ m ∈ get_citations_from_text txt, remove_trailing_chars m = m := by
    intro m hm
    obtain ⟨l, d, hl, hd⟩ := get_citations_end_digit txt m hm
    exact remove_trailing_chars_of_end m l d hl (digit_not_term d hd)
  calc (get_citations_from_text txt).map remove_trailing_chars
      = (get_citations_from_text txt).map id := List.map_congr_left h
  _ = _ := List.map_id _

/-- C2.  The document citation collection is as if each raw citation match
were passed through `remove_trailing_chars` before the length filter and
the sort: inserting the normalization step changes nothing, because every
citation match ends with a `[0-9]{4}` digit; consequently every element of
the collection is normalization-fixed and ends in a non-terminator
character. -/
theorem citations_normalized_before_filter (txt : Str) :
    doc_citations (get_citations_from_text txt)
      = doc_citations ((get_citations_from_text txt).map remove_trailing_chars)
    ∧ ∀ m ∈ doc_citations (get_citations_from_text txt),
        remove_trailing_chars m = m ∧ ∃ l d, m = l ++ [d] ∧ isTermChar d = false := by
  constructor
  · rw [map_rtc_citations]
  · intro m hm
    have hm' : m ∈ get_citations_from_text txt := ((mem_doc_citations m _).mp hm).1
    obtain ⟨l, d, hl, hd⟩ := get_citations_end_digit txt m hm'
    exact ⟨remove_trailing_chars_of_end m l d hl (digit_not_term d hd),
      l, d, hl, digit_not_term d hd⟩

/-- Witness for C2 on a document containing one citation. -/
theorem citations_normalized_before_filter_witness :
    remove_trailing_chars "חוק תשא 1234".toList = "חוק תשא 1234".toList
    ∧ ∃ l d, "חוק תשא 1234".toList = l ++ [d] ∧ isTermChar d = false :=
  (citations_normalized_before_filter "חוק תשא 1234".toList).2
    "חוק תשא 1234".toList (by decide)

end ParseLaws
